import Mathlib

/-!
Verification development for the tsc-wrapped build orchestrator
(`tools/@angular/tsc-wrapped/src/main.ts`).

The development shallowly embeds the program:

* the patch engine of `main` (sort replacements by `endPosition` descending,
  then repeatedly rebuild `newSource` from a head slice of the mutated text
  and a tail slice of the original text);
* the file-system walker `mkdirParent`;
* the per-file lint / fix-collection / mirrored-write loop and the
  surrounding phase ordering of `main`.

Strings are modelled as `List Char` (JavaScript `substring(0, n)` is `take n`,
`substring(n)` is `drop n`, `+` is `++`).  File-system paths are modelled as
lists of path segments; `path.join` normalises `".."` segments the way Node
does.  External collaborators (`ts.*`, tslint) and the repository files that
are not part of the analysed source (`./tsc`, `./options`, `./compiler_host`)
are modelled at their interface boundary following the specification.
-/

/-! ## Patch engine (main.ts lines 95-103) -/

/-- A text replacement as produced by a tslint fix: the half-open range
`[startPosition, endPosition)` of the original text is to be replaced by
`text`. -/
structure Replacement where
  startPosition : Nat
  endPosition : Nat
  text : List Char
  deriving DecidableEq, Repr

/-- The comparator `(a, b) => b.endPosition - a.endPosition` passed to
`Array.prototype.sort`: it orders replacements by `endPosition` descending.
`Array.prototype.sort` is a stable sort (ES2019), so the loop is modelled
with a stable sort under this relation. -/
def sortRel (a b : Replacement) : Prop :=
  b.endPosition ≤ a.endPosition

instance : DecidableRel sortRel := fun a b => Nat.decLe b.endPosition a.endPosition

instance : IsTotal Replacement sortRel where
  total a b := le_total b.endPosition a.endPosition

instance : IsTrans Replacement sortRel where
  trans _ _ _ h1 h2 := le_trans h2 h1

/-- One iteration of the `forEach` loop of main.ts lines 100-103:
`newSource = newSource.substring(0, r.startPosition) + r.text +
source.substring(r.endPosition)`.  Note that the tail slice is taken from the
ORIGINAL `source`, not from the mutated `cur`. -/
def applyReplacement (source : List Char) (cur : List Char) (r : Replacement) :
    List Char :=
  cur.take r.startPosition ++ r.text ++ source.drop r.endPosition

/-- The whole patch engine of main.ts lines 95-103: sort the replacements by
`endPosition` descending (stably) and fold the substitution step over the
sorted list, starting from the original text. -/
def patchEngine (source : List Char) (replacements : List Replacement) :
    List Char :=
  (List.insertionSort sortRel replacements).foldl (applyReplacement source) source

/-- Range validity of a replacement for a given original text:
`0 ≤ startPosition ≤ endPosition ≤ length` (the lower bound is implicit in
`Nat`). -/
def rangeValid (source : List Char) (r : Replacement) : Prop :=
  r.startPosition ≤ r.endPosition ∧ r.endPosition ≤ source.length

/-- Pairwise non-overlap of the replacement ranges. -/
def nonOverlapping (rs : List Replacement) : Prop :=
  List.Pairwise
    (fun a b =>
      a.endPosition ≤ b.startPosition ∨ b.endPosition ≤ a.startPosition) rs

/-- All `endPosition` keys of the list are pairwise distinct. -/
def endPositionsDistinct (rs : List Replacement) : Prop :=
  (rs.map Replacement.endPosition).Nodup

/-- Strict-descending-or-equal order used to pin down the sorted list when the
`endPosition` keys are pairwise distinct. -/
def strictDesc (a b : Replacement) : Prop :=
  b.endPosition < a.endPosition ∨ a = b

instance : IsAntisymm Replacement strictDesc where
  antisymm := by
    intro a b hab hba
    rcases hab with h1 | h1
    · rcases hba with h2 | h2
      · exact absurd h2 (Nat.lt_asymm h1)
      · exact h2.symm
    · exact h1

/-- With pairwise distinct `endPosition` keys, every permutation of a
replacement list has the same descending stable sort. -/
theorem stableSort_eq_of_perm (l l2 : List Replacement)
    (hp : List.Perm l l2) (hd : endPositionsDistinct l) :
    List.insertionSort sortRel l = List.insertionSort sortRel l2 := by
  have hd2 : endPositionsDistinct l2 :=
    (hp.map Replacement.endPosition).nodup_iff.mp hd
  have hperm :
      List.Perm (List.insertionSort sortRel l) (List.insertionSort sortRel l2) :=
    ((List.perm_insertionSort sortRel l).trans hp).trans
      (List.perm_insertionSort sortRel l2).symm
  have hs1 := List.sorted_insertionSort sortRel l
  have hs2 := List.sorted_insertionSort sortRel l2
  have hn1 : endPositionsDistinct (List.insertionSort sortRel l) :=
    (List.Perm.map Replacement.endPosition
      (List.perm_insertionSort sortRel l)).nodup_iff.mpr hd
  have hn2 : endPositionsDistinct (List.insertionSort sortRel l2) :=
    (List.Perm.map Replacement.endPosition
      (List.perm_insertionSort sortRel l2)).nodup_iff.mpr hd2
  have key : ∀ (m : List Replacement), List.Sorted sortRel m →
      endPositionsDistinct m → List.Sorted strictDesc m := by
    intro m hle hnd
    have hne : List.Pairwise
        (fun a b => a.endPosition ≠ b.endPosition) m := by
      exact (List.pairwise_map (f := Replacement.endPosition)
        (R := fun a b => a ≠ b) (l := m)).mp hnd
    refine List.Pairwise.imp ?_ (hle.and hne)
    intro a b hab
    rcases hab with ⟨h1, h2⟩
    exact Or.inl (lt_of_le_of_ne h1 (fun h => h2 h.symm))
  exact List.eq_of_perm_of_sorted hperm (key _ hs1 hn1) (key _ hs2 hn2)

instance (s : List Char) (r : Replacement) : Decidable (rangeValid s r) := by
  unfold rangeValid
  infer_instance

instance (rs : List Replacement) : Decidable (nonOverlapping rs) := by
  unfold nonOverlapping
  infer_instance

instance (rs : List Replacement) : Decidable (endPositionsDistinct rs) := by
  unfold endPositionsDistinct
  infer_instance

/-- C1: the substitution loop of main.ts lines 99-103 takes its tail slice
from the ORIGINAL text (`source.substring(r.endPosition)`), so each iteration
discards every previously applied replacement.  On originalText `"abcdef"`
with the pairwise non-overlapping, range-valid replacements
`[2,3) ↦ "XX"` and `[4,5) ↦ "YY"`, the loop yields `"abXXdef"`: the `[4,5)`
range keeps its original content and the output length is `7`, not
`6 - 2 + 4 = 8` as the claim requires. -/
theorem c1_patchEngine_failing_input_eval :
    nonOverlapping [(⟨2, 3, "XX".toList⟩ : Replacement), ⟨4, 5, "YY".toList⟩] ∧
      rangeValid "abcdef".toList ⟨2, 3, "XX".toList⟩ ∧
      rangeValid "abcdef".toList ⟨4, 5, "YY".toList⟩ ∧
      patchEngine "abcdef".toList
          [⟨2, 3, "XX".toList⟩, ⟨4, 5, "YY".toList⟩] = "abXXdef".toList ∧
      ¬ (patchEngine "abcdef".toList
            [⟨2, 3, "XX".toList⟩, ⟨4, 5, "YY".toList⟩]).length =
          "abcdef".toList.length - ((3 - 2) + (5 - 4)) +
            ("XX".toList.length + "YY".toList.length) := by
  decide

/-- C2 counterexample: the two pre-sort orderings of the same pairwise
non-overlapping, range-valid replacement set over `"ab"` — the empty-range
insertion `[1,1) ↦ "X"` and the substitution `[0,1) ↦ "Y"`, which share
`endPosition = 1` — produce different patched outputs (`"Yb"` versus
`"YXb"`), so the output is not independent of the initial ordering. -/
theorem c2_order_dependence_counterexample :
    List.Perm [(⟨1, 1, "X".toList⟩ : Replacement), ⟨0, 1, "Y".toList⟩]
        [⟨0, 1, "Y".toList⟩, ⟨1, 1, "X".toList⟩] ∧
      nonOverlapping [(⟨1, 1, "X".toList⟩ : Replacement), ⟨0, 1, "Y".toList⟩] ∧
      nonOverlapping [(⟨0, 1, "Y".toList⟩ : Replacement), ⟨1, 1, "X".toList⟩] ∧
      rangeValid "ab".toList ⟨1, 1, "X".toList⟩ ∧
      rangeValid "ab".toList ⟨0, 1, "Y".toList⟩ ∧
      patchEngine "ab".toList [⟨1, 1, "X".toList⟩, ⟨0, 1, "Y".toList⟩] ≠
        patchEngine "ab".toList [⟨0, 1, "Y".toList⟩, ⟨1, 1, "X".toList⟩] := by
  decide

/-- C2 amended: for every original text and every list of pairwise
non-overlapping, range-valid replacements whose `endPosition` keys are
pairwise distinct, the output of the patch loop (which first sorts by
`endPosition` descending) is the same regardless of the initial, pre-sort
ordering of the replacements.  (When two replacements share an `endPosition`
the stable sort preserves their input order and the output can depend on it —
see the counterexample.) -/
theorem c2_patchEngine_order_independent (source : List Char)
    (l l2 : List Replacement) (hp : List.Perm l l2)
    (_hv : ∀ r ∈ l, rangeValid source r) (_hn : nonOverlapping l)
    (hd : endPositionsDistinct l) :
    patchEngine source l = patchEngine source l2 := by
  unfold patchEngine
  rw [stableSort_eq_of_perm l l2 hp hd]

/-- Witness for the amended C2 theorem at a concrete input. -/
theorem c2_patchEngine_order_independent_witness :
    patchEngine "abcd".toList
        [(⟨0, 1, "U".toList⟩ : Replacement), ⟨2, 3, "V".toList⟩] =
      patchEngine "abcd".toList [⟨2, 3, "V".toList⟩, ⟨0, 1, "U".toList⟩] :=
  c2_patchEngine_order_independent "abcd".toList _ _ (by decide) (by decide)
    (by decide) (by decide)

/-! ## File-system model and the output tree materializer (main.ts lines 134-141) -/

/-- A file-system path as a list of segments.  The empty list models both the
root of an absolute path and the relative path `"."`. -/
abbrev FsPath := List String

/-- Node path normalisation restricted to what the embedded paths need: a
`".."` segment removes the segment before it.  (`"."` segments never occur:
`path.dirname` returning `"."` is modelled by the empty segment list.) -/
def normalizePath (p : FsPath) : FsPath :=
  p.foldl (fun acc s => if s = ".." then acc.dropLast else acc ++ [s]) []

/-- `path.join(a, b)` on segment lists, with Node's `".."` normalisation. -/
def pathJoin (a b : FsPath) : FsPath :=
  normalizePath (a ++ b)

/-- `path.relative(base, target)` for normalised absolute paths: drop the
common prefix, then one `".."` per remaining base segment. -/
def pathRelative : FsPath → FsPath → FsPath
  | [], t => t
  | f :: fs, [] => (f :: fs).map (fun _ => "..")
  | f :: fs, t :: ts =>
    if f = t then pathRelative fs ts
    else ((f :: fs).map fun _ => "..") ++ (t :: ts)

/-- The visible file-system state: the set of existing directories and the
existing files with their contents.  Both lists record the most recent
creation or write first. -/
structure FS where
  dirs : List FsPath
  files : List (FsPath × List Char)
  deriving DecidableEq, Repr

/-- Faults surfaced by the file-system model. -/
inductive FsError where
  | eexist
  | enoent
  deriving DecidableEq, Repr

/-- `fs.existsSync(p)`: the path exists as a directory or as a file. -/
def FS.existsSync (fs : FS) (p : FsPath) : Bool :=
  decide (p ∈ fs.dirs) || decide (p ∈ fs.files.map Prod.fst)

/-- `fs.mkdirSync(p)` (non-recursive): fails when the path already exists or
when the parent directory is missing; otherwise records the new directory. -/
def FS.mkdirSync (fs : FS) (p : FsPath) : Except FsError FS :=
  if fs.existsSync p = true then .error .eexist
  else if p.dropLast ∈ fs.dirs then .ok { fs with dirs := p :: fs.dirs }
  else .error .enoent

/-- `fs.writeFileSync(p, content)`: fails when the path is a directory or the
parent directory is missing; otherwise records the content (newest first, so
`List.lookup` finds the latest write). -/
def FS.writeFileSync (fs : FS) (p : FsPath) (content : List Char) :
    Except FsError FS :=
  if p ∈ fs.dirs then .error .eexist
  else if p.dropLast ∈ fs.dirs then
    .ok { fs with files := (p, content) :: fs.files }
  else .error .enoent

/-- The content currently stored at a path, if any. -/
def FS.readFile (fs : FS) (p : FsPath) : Option (List Char) :=
  fs.files.lookup p

/-- Well-formedness of a file-system state: every existing non-root path has
an existing parent. -/
def FS.wellFormed (fs : FS) : Prop :=
  ∀ p ∈ fs.dirs ++ fs.files.map Prod.fst, p ≠ [] → fs.existsSync p.dropLast = true

instance (fs : FS) : Decidable fs.wellFormed := by
  unfold FS.wellFormed
  infer_instance

/-- Fuel-indexed form of `mkdirParent` (main.ts lines 134-141); `none` means
the fuel ran out before the recursion returned.  `dir = []` models the path
`"."`; `List.dropLast` is `path.dirname` on segment lists.  The second
component of a returned pair is the fault raised, if any; the first is the
file-system state reached, including directories created before a fault. -/
def mkdirParentGo : Nat → FS → FsPath → FsPath → Option (FS × Option FsError)
  | 0, _, _, _ => none
  | fuel + 1, fs, baseDir, dir =>
    if dir = [] ∨ fs.existsSync (pathJoin baseDir dir) = true then
      some (fs, none)
    else
      match mkdirParentGo fuel fs baseDir dir.dropLast with
      | none => none
      | some (fs1, some e) => some (fs1, some e)
      | some (fs1, none) =>
        match fs1.mkdirSync (pathJoin baseDir dir) with
        | .error e => some (fs1, some e)
        | .ok fs2 => some (fs2, none)

/-- `mkdirParent` of main.ts lines 134-141, run with fuel `dir.length + 1`;
`mkdirParentGo_eq` proves the fuel sufficient and `mkdirParent_unfold`
recovers the recursion exactly as the source writes it. -/
def mkdirParent (fs : FS) (baseDir dir : FsPath) : FS × Option FsError :=
  (mkdirParentGo (dir.length + 1) fs baseDir dir).getD (fs, none)

/-- The fuel argument is irrelevant once it exceeds the number of path
segments. -/
theorem mkdirParentGo_fuel (fuel1 : Nat) :
    ∀ (fuel2 : Nat) (fs : FS) (baseDir dir : FsPath),
      dir.length < fuel1 → dir.length < fuel2 →
      mkdirParentGo fuel1 fs baseDir dir = mkdirParentGo fuel2 fs baseDir dir := by
  induction fuel1 with
  | zero =>
    intro fuel2 fs b dir h1 _
    exact absurd h1 (Nat.not_lt_zero _)
  | succ n ih =>
    intro fuel2 fs b dir h1 h2
    match fuel2, h2 with
    | m + 1, h2 =>
      simp only [mkdirParentGo]
      by_cases hc : dir = [] ∨ fs.existsSync (pathJoin b dir) = true
      · rw [if_pos hc, if_pos hc]
      · rw [if_neg hc, if_neg hc]
        have hne : dir ≠ [] := fun h => hc (Or.inl h)
        have hpos : 1 ≤ dir.length := List.length_pos.mpr hne
        have hlen1 : dir.dropLast.length < n := by
          rw [List.length_dropLast]; omega
        have hlen2 : dir.dropLast.length < m := by
          rw [List.length_dropLast]; omega
        rw [ih m fs b dir.dropLast hlen1 hlen2]

/-- With fuel exceeding the number of segments, the recursion returns. -/
theorem mkdirParentGo_isSome (fuel : Nat) :
    ∀ (fs : FS) (baseDir dir : FsPath), dir.length < fuel →
      (mkdirParentGo fuel fs baseDir dir).isSome = true := by
  induction fuel with
  | zero =>
    intro fs b dir h
    exact absurd h (Nat.not_lt_zero _)
  | succ n ih =>
    intro fs b dir h
    simp only [mkdirParentGo]
    by_cases hc : dir = [] ∨ fs.existsSync (pathJoin b dir) = true
    · rw [if_pos hc]; rfl
    · rw [if_neg hc]
      have hne : dir ≠ [] := fun hh => hc (Or.inl hh)
      have hpos : 1 ≤ dir.length := List.length_pos.mpr hne
      have hlen : dir.dropLast.length < n := by
        rw [List.length_dropLast]; omega
      have hs := ih fs b dir.dropLast hlen
      cases hgo : mkdirParentGo n fs b dir.dropLast with
      | none => rw [hgo] at hs; simp at hs
      | some pr =>
        obtain ⟨fs1, eo⟩ := pr
        cases eo with
        | none =>
          rcases hmk : fs1.mkdirSync (pathJoin b dir) with e | fs2 <;>
            simp [hmk]
        | some e => rfl

/-- Any sufficient fuel computes exactly `mkdirParent`. -/
theorem mkdirParentGo_eq (fuel : Nat) (fs : FS) (baseDir dir : FsPath)
    (h : dir.length < fuel) :
    mkdirParentGo fuel fs baseDir dir = some (mkdirParent fs baseDir dir) := by
  have h2 : dir.length < dir.length + 1 := Nat.lt_succ_self _
  rw [mkdirParentGo_fuel fuel (dir.length + 1) fs baseDir dir h h2]
  have hs := mkdirParentGo_isSome (dir.length + 1) fs baseDir dir h2
  unfold mkdirParent
  cases hgo : mkdirParentGo (dir.length + 1) fs baseDir dir with
  | none => rw [hgo] at hs; simp at hs
  | some x => simp

/-- `mkdirParent` satisfies the recursion of main.ts lines 134-141 verbatim:
return if the directory is `"."` or already exists, otherwise first recurse on
`path.dirname(dir)` and then `mkdirSync` the joined path. -/
theorem mkdirParent_unfold (fs : FS) (baseDir dir : FsPath) :
    mkdirParent fs baseDir dir =
      if dir = [] ∨ fs.existsSync (pathJoin baseDir dir) = true then (fs, none)
      else
        match mkdirParent fs baseDir dir.dropLast with
        | (fs1, some e) => (fs1, some e)
        | (fs1, none) =>
          match fs1.mkdirSync (pathJoin baseDir dir) with
          | .error e => (fs1, some e)
          | .ok fs2 => (fs2, none) := by
  conv_lhs => rw [mkdirParent]
  simp only [mkdirParentGo]
  by_cases hc : dir = [] ∨ fs.existsSync (pathJoin baseDir dir) = true
  · rw [if_pos hc, if_pos hc]; rfl
  · rw [if_neg hc, if_neg hc]
    have hne : dir ≠ [] := fun h => hc (Or.inl h)
    have hpos : 1 ≤ dir.length := List.length_pos.mpr hne
    have hlen : dir.dropLast.length < dir.length := by
      rw [List.length_dropLast]; omega
    rw [mkdirParentGo_eq dir.length fs baseDir dir.dropLast hlen]
    cases mkdirParent fs baseDir dir.dropLast with
    | mk fs1 eo =>
      cases eo with
      | none =>
        rcases hmk : fs1.mkdirSync (pathJoin baseDir dir) with e | fs2 <;>
          simp [hmk]
      | some e => rfl

/-- Folding the normalisation step over a `".."`-free list appends it. -/
theorem normalizePath_go (p : FsPath) :
    ∀ acc : FsPath, ".." ∉ p →
      p.foldl (fun acc s => if s = ".." then acc.dropLast else acc ++ [s]) acc =
        acc ++ p := by
  induction p with
  | nil =>
    intro acc _
    simp
  | cons s rest ih =>
    intro acc h
    have hs : ¬ s = ".." := fun hh => h (by rw [hh]; exact List.mem_cons_self _ _)
    simp only [List.foldl_cons, if_neg hs]
    rw [ih (acc ++ [s]) (fun hm => h (List.mem_cons_of_mem s hm))]
    simp

/-- A `".."`-free path is already normalised. -/
theorem normalizePath_eq_self (p : FsPath) (h : ".." ∉ p) : normalizePath p = p := by
  unfold normalizePath
  rw [normalizePath_go p [] h]
  simp

/-- On `".."`-free paths, `path.join` is plain concatenation. -/
theorem pathJoin_eq_append (a b : FsPath) (ha : ".." ∉ a) (hb : ".." ∉ b) :
    pathJoin a b = a ++ b := by
  unfold pathJoin
  refine normalizePath_eq_self _ ?_
  intro hm
  rcases List.mem_append.mp hm with h | h
  · exact ha h
  · exact hb h

/-- Unfolding of `existsSync` to membership. -/
theorem existsSync_true_iff (fs : FS) (p : FsPath) :
    fs.existsSync p = true ↔ p ∈ fs.dirs ∨ p ∈ fs.files.map Prod.fst := by
  simp [FS.existsSync]

/-- Characterisation of a successful `mkdirSync`. -/
theorem mkdirSync_ok (fs fs2 : FS) (p : FsPath)
    (h : fs.mkdirSync p = .ok fs2) :
    fs2.dirs = p :: fs.dirs ∧ fs2.files = fs.files ∧
      fs.existsSync p = false ∧ p.dropLast ∈ fs.dirs := by
  unfold FS.mkdirSync at h
  by_cases h1 : fs.existsSync p = true
  · rw [if_pos h1] at h
    cases h
  · rw [if_neg h1] at h
    by_cases h2 : p.dropLast ∈ fs.dirs
    · rw [if_pos h2] at h
      injection h with h3
      subst h3
      exact ⟨rfl, rfl, by simpa using h1, h2⟩
    · rw [if_neg h2] at h
      cases h

/-- `mkdirSync` preserves existing paths. -/
theorem existsSync_mono_mkdir (fs fs2 : FS) (p q : FsPath)
    (h : fs.mkdirSync p = .ok fs2) (hq : fs.existsSync q = true) :
    fs2.existsSync q = true := by
  obtain ⟨hdirs, hfiles, -, -⟩ := mkdirSync_ok fs fs2 p h
  rw [existsSync_true_iff, hdirs, hfiles]
  rcases (existsSync_true_iff fs q).mp hq with hm | hm
  · exact Or.inl (List.mem_cons_of_mem p hm)
  · exact Or.inr hm

/-- Taking from `dropLast` agrees with taking from the list itself below the
last position. -/
theorem take_dropLast (l : FsPath) (k : Nat) (h : k ≤ l.length - 1) :
    l.dropLast.take k = l.take k := by
  rw [List.dropLast_eq_take, List.take_take]
  congr 1
  omega

/-- In a well-formed file system, when a joined path exists every one of its
prefixes below the base also exists. -/
theorem existsSync_ancestors (fs : FS) (hwf : fs.wellFormed) :
    ∀ (n : Nat) (l baseDir : FsPath), l.length ≤ n →
      fs.existsSync (baseDir ++ l) = true →
      ∀ k, 1 ≤ k → k ≤ l.length → fs.existsSync (baseDir ++ l.take k) = true := by
  intro n
  induction n with
  | zero =>
    intro l baseDir hlen hex k hk1 hk2
    omega
  | succ n ih =>
    intro l baseDir hlen hex k hk1 hk2
    by_cases hk : k = l.length
    · subst hk
      rw [List.take_length]
      exact hex
    · have hne : l ≠ [] := by
        intro hh
        subst hh
        simp at hk2
        omega
      have hpar : fs.existsSync (baseDir ++ l).dropLast = true := by
        have hmem : (baseDir ++ l) ∈ fs.dirs ++ fs.files.map Prod.fst := by
          rcases (existsSync_true_iff fs _).mp hex with h | h
          · exact List.mem_append.mpr (Or.inl h)
          · exact List.mem_append.mpr (Or.inr h)
        refine hwf _ hmem ?_
        intro hh
        exact hne (List.append_eq_nil.mp hh).2
      rw [List.dropLast_append_of_ne_nil baseDir hne] at hpar
      have hlen2 : l.dropLast.length ≤ n := by
        rw [List.length_dropLast]
        omega
      have hk3 : k ≤ l.dropLast.length := by
        rw [List.length_dropLast]
        omega
      have := ih l.dropLast baseDir hlen2 hpar k hk1 hk3
      rwa [take_dropLast l k (by omega)] at this

/-- Core induction for Materializer completeness: a successful `mkdirParent`
run makes every prefix of the requested directory exist under the base,
touches no file, and grows `dirs` exactly by a deepest-first chain of
ancestors of the requested directory. -/
theorem mkdirParent_complete_core :
    ∀ (n : Nat) (dir : FsPath) (fs fs2 : FS) (baseDir : FsPath),
      dir.length ≤ n → fs.wellFormed → ".." ∉ baseDir → ".." ∉ dir →
      mkdirParent fs baseDir dir = (fs2, none) →
      (∀ k, 1 ≤ k → k ≤ dir.length →
          fs2.existsSync (baseDir ++ dir.take k) = true) ∧
        fs2.files = fs.files ∧
        ∃ m, m ≤ dir.length ∧
          fs2.dirs = ((List.range m).map
            fun i => baseDir ++ dir.take (dir.length - i)) ++ fs.dirs := by
  intro n
  induction n with
  | zero =>
    intro dir fs fs2 b hlen hwf hb hd hrun
    have hnil : dir = [] := List.length_eq_zero.mp (Nat.le_zero.mp hlen)
    subst hnil
    rw [mkdirParent_unfold, if_pos (Or.inl rfl)] at hrun
    have hfs : fs = fs2 := congrArg Prod.fst hrun
    subst hfs
    refine ⟨?_, rfl, 0, by omega, by simp⟩
    intro k hk1 hk2
    simp at hk2
    omega
  | succ n ih =>
    intro dir fs fs2 b hlen hwf hb hd hrun
    rw [mkdirParent_unfold] at hrun
    by_cases hc : dir = [] ∨ fs.existsSync (pathJoin b dir) = true
    · rw [if_pos hc] at hrun
      have hfs : fs = fs2 := congrArg Prod.fst hrun
      subst hfs
      rcases hc with hnil | hex
      · subst hnil
        refine ⟨?_, rfl, 0, by omega, by simp⟩
        intro k hk1 hk2
        simp at hk2
        omega
      · rw [pathJoin_eq_append b dir hb hd] at hex
        refine ⟨?_, rfl, 0, by omega, by simp⟩
        intro k hk1 hk2
        exact existsSync_ancestors fs hwf dir.length dir b le_rfl hex k hk1 hk2
    · rw [if_neg hc] at hrun
      have hne : dir ≠ [] := fun h => hc (Or.inl h)
      have hpos : 1 ≤ dir.length := List.length_pos.mpr hne
      rcases hrec : mkdirParent fs b dir.dropLast with ⟨fs1, eo⟩
      rw [hrec] at hrun
      cases eo with
      | some e => exact absurd (congrArg Prod.snd hrun) (by simp)
      | none =>
        have hrun2 : (match fs1.mkdirSync (pathJoin b dir) with
            | Except.error e => (fs1, some e)
            | Except.ok fs4 => (fs4, none)) = (fs2, none) := hrun
        rcases hmk : fs1.mkdirSync (pathJoin b dir) with e | fs3
        · rw [hmk] at hrun2
          exact absurd (congrArg Prod.snd hrun2) (by simp)
        · rw [hmk] at hrun2
          have hfs : fs3 = fs2 := congrArg Prod.fst hrun2
          subst hfs
          have hdd : ".." ∉ dir.dropLast := by
            intro hm
            rw [List.dropLast_eq_take] at hm
            exact hd (List.take_subset _ _ hm)
          have hlen1 : dir.dropLast.length ≤ n := by
            rw [List.length_dropLast]
            omega
          obtain ⟨ih1, ih2, m, hm, ih3⟩ :=
            ih dir.dropLast fs fs1 b hlen1 hwf hb hdd hrec
          obtain ⟨hdirs3, hfiles3, -, -⟩ := mkdirSync_ok fs1 fs3 _ hmk
          rw [pathJoin_eq_append b dir hb hd] at hdirs3
          have hdl : dir.dropLast.length = dir.length - 1 :=
            List.length_dropLast dir
          refine ⟨?_, by rw [hfiles3, ih2], m + 1, by omega, ?_⟩
          · intro k hk1 hk2
            by_cases hk : k = dir.length
            · subst hk
              rw [List.take_length, existsSync_true_iff, hdirs3]
              exact Or.inl (List.mem_cons_self _ _)
            · have hkle : k ≤ dir.length - 1 := by omega
              have hk3 : k ≤ dir.dropLast.length := by
                rw [List.length_dropLast]
                exact hkle
              have hex1 := ih1 k hk1 hk3
              rw [take_dropLast dir k hkle] at hex1
              exact existsSync_mono_mkdir fs1 fs3 _ _ hmk hex1
          · have hmap : (List.range m).map
                (fun i => b ++ dir.dropLast.take (dir.dropLast.length - i)) =
                (List.range m).map
                  ((fun i => b ++ dir.take (dir.length - i)) ∘ Nat.succ) := by
              refine List.map_congr_left ?_
              intro i hi
              simp only [Function.comp_apply]
              rw [List.length_dropLast,
                take_dropLast dir (dir.length - 1 - i) (by omega)]
              congr 2
              omega
            rw [hdirs3, ih3, List.range_succ_eq_map, List.map_cons,
              List.map_map, List.cons_append, ← hmap]
            congr 1
            rw [Nat.sub_zero, List.take_length]

/-- C3: Materializer completeness: after `mkdirParent(root, p)` returns
without fault over a well-formed file system (paths free of `".."`
segments), every ancestor prefix of `p` exists under the root (for
`p = a/b/c/d`: `a`, `a/b`, `a/b/c` and `a/b/c/d`), no file is created, and
the directory list grows exactly by a chain of prefixes of `p` recorded
deepest-first — i.e. every ancestor was created before its descendants. -/
theorem c3_mkdirParent_complete (fs fs2 : FS) (baseDir dir : FsPath)
    (hwf : fs.wellFormed) (hb : ".." ∉ baseDir) (hd : ".." ∉ dir)
    (hrun : mkdirParent fs baseDir dir = (fs2, none)) :
    (∀ k, 1 ≤ k → k ≤ dir.length →
        fs2.existsSync (baseDir ++ dir.take k) = true) ∧
      fs2.files = fs.files ∧
      ∃ m, m ≤ dir.length ∧
        fs2.dirs = ((List.range m).map
          fun i => baseDir ++ dir.take (dir.length - i)) ++ fs.dirs :=
  mkdirParent_complete_core dir.length dir fs fs2 baseDir le_rfl hwf hb hd hrun

/-- Witness for C3: over the file system holding only the root, materialising
`a/b/c/d` makes the intermediate directory `a/b` exist. -/
theorem c3_mkdirParent_complete_witness :
    (⟨[[]], []⟩ : FS).wellFormed ∧
      (⟨[["a", "b", "c", "d"], ["a", "b", "c"], ["a", "b"], ["a"], []],
          []⟩ : FS).existsSync
        (([] : FsPath) ++ (["a", "b", "c", "d"] : FsPath).take 2) = true :=
  ⟨by decide,
    (c3_mkdirParent_complete ⟨[[]], []⟩
        ⟨[["a", "b", "c", "d"], ["a", "b", "c"], ["a", "b"], ["a"], []], []⟩
        [] ["a", "b", "c", "d"] (by decide) (by decide) (by decide)
        (by decide)).1 2 (by decide) (by decide)⟩

/-- A successful `mkdirParent` run leaves the joined path existing, except in
the degenerate `"."` case. -/
theorem mkdirParent_ok_exists (fs fs2 : FS) (baseDir dir : FsPath)
    (hrun : mkdirParent fs baseDir dir = (fs2, none)) :
    dir = [] ∨ fs2.existsSync (pathJoin baseDir dir) = true := by
  rw [mkdirParent_unfold] at hrun
  by_cases hc : dir = [] ∨ fs.existsSync (pathJoin baseDir dir) = true
  · rw [if_pos hc] at hrun
    have hfs : fs = fs2 := congrArg Prod.fst hrun
    subst hfs
    exact hc
  · rw [if_neg hc] at hrun
    rcases hrec : mkdirParent fs baseDir dir.dropLast with ⟨fs1, eo⟩
    rw [hrec] at hrun
    cases eo with
    | some e => exact absurd (congrArg Prod.snd hrun) (by simp)
    | none =>
      have hrun2 : (match fs1.mkdirSync (pathJoin baseDir dir) with
          | Except.error e => (fs1, some e)
          | Except.ok fs4 => (fs4, none)) = (fs2, none) := hrun
      rcases hmk : fs1.mkdirSync (pathJoin baseDir dir) with e | fs3
      · rw [hmk] at hrun2
        exact absurd (congrArg Prod.snd hrun2) (by simp)
      · rw [hmk] at hrun2
        have hfs : fs3 = fs2 := congrArg Prod.fst hrun2
        subst hfs
        obtain ⟨hdirs, -, -, -⟩ := mkdirSync_ok _ _ _ hmk
        rw [existsSync_true_iff, hdirs]
        exact Or.inr (Or.inl (List.mem_cons_self _ _))

/-- C4: Materializer idempotence: when `mkdirParent` returns without fault,
calling it again with identical arguments returns the identical file-system
state and raises no fault — the second call performs no directory creation. -/
theorem c4_mkdirParent_idempotent (fs fs2 : FS) (baseDir dir : FsPath)
    (hrun : mkdirParent fs baseDir dir = (fs2, none)) :
    mkdirParent fs2 baseDir dir = (fs2, none) := by
  rw [mkdirParent_unfold]
  rcases mkdirParent_ok_exists fs fs2 baseDir dir hrun with h | h
  · rw [if_pos (Or.inl h)]
  · rw [if_pos (Or.inr h)]

/-- Witness for C4: repeating the materialisation of `a/b` after a first
successful run changes nothing and raises no fault. -/
theorem c4_mkdirParent_idempotent_witness :
    mkdirParent ⟨[["a", "b"], ["a"], []], []⟩ [] ["a", "b"] =
      (⟨[["a", "b"], ["a"], []], []⟩, none) :=
  c4_mkdirParent_idempotent ⟨[[]], []⟩ _ [] ["a", "b"] (by decide)

/-- C10: `mkdirParent` terminates for every relative directory path: the
literal recursion of main.ts lines 134-141, run as a fuel-indexed function,
never exhausts a fuel of `segments + 1` — the recursion depth is bounded by
the number of path segments, since each recursive call strips the last
segment and the recursion stops at `"."` (the empty segment list). -/
theorem c10_mkdirParent_terminates (fs : FS) (baseDir dir : FsPath) :
    mkdirParentGo (dir.length + 1) fs baseDir dir =
      some (mkdirParent fs baseDir dir) :=
  mkdirParentGo_eq (dir.length + 1) fs baseDir dir (Nat.lt_succ_self _)

/-! ## Lint collaborator interface and fix collection (main.ts lines 78-112) -/

/-- A tslint fix (called `Fix` in the source): an ordered list of
replacements. -/
structure LintFix where
  replacements : List Replacement
  deriving DecidableEq, Repr

/-- A lint finding (tslint RuleFailure): `getFixes()` returns its candidate
fixes in order. -/
structure LintFailure where
  fixes : List LintFix
  deriving DecidableEq, Repr

/-- The lint result for one file, at the interface of the Static Analyzer. -/
structure LintResult where
  failures : List LintFailure
  deriving DecidableEq, Repr

/-- tslint reports `failureCount` as the number of failures. -/
def LintResult.failureCount (r : LintResult) : Nat :=
  r.failures.length

/-- The reduce of main.ts lines 87-93: walk the findings in order and, for
each finding whose `getFixes()` is non-empty, append the replacements of its
FIRST fix to the accumulator. -/
def collectReplacements (failures : List LintFailure) : List Replacement :=
  failures.foldl
    (fun acc f =>
      if f.fixes.length > 0 then acc ++ (f.fixes.headD ⟨[]⟩).replacements
      else acc) []

/-- The first fix contribution of a single finding: the first fix's
replacements when a fix exists, nothing otherwise. -/
def firstFixReplacements (f : LintFailure) : List Replacement :=
  match f.fixes with
  | [] => []
  | fix :: _ => fix.replacements

/-- The fold of `collectReplacements` from any accumulator appends the
flattened first-fix contributions. -/
theorem collectReplacements_go (failures : List LintFailure) :
    ∀ acc : List Replacement,
      failures.foldl
        (fun acc f =>
          if f.fixes.length > 0 then acc ++ (f.fixes.headD ⟨[]⟩).replacements
          else acc) acc =
        acc ++ (failures.map firstFixReplacements).flatten := by
  induction failures with
  | nil =>
    intro acc
    simp
  | cons f rest ih =>
    intro acc
    cases hfx : f.fixes with
    | nil =>
      simp only [List.foldl_cons, hfx, List.length_nil, gt_iff_lt,
        Nat.lt_irrefl, if_false]
      rw [ih acc]
      simp [firstFixReplacements, hfx]
    | cons fix more =>
      simp only [List.foldl_cons, hfx, List.length_cons, if_pos (Nat.succ_pos _)]
      rw [ih (acc ++ (List.headD (fix :: more) ⟨[]⟩).replacements)]
      simp [firstFixReplacements, hfx, List.append_assoc]

/-- The collected replacements are exactly the flattened first-fix
contributions in finding order. -/
theorem collectReplacements_flatten (failures : List LintFailure) :
    collectReplacements failures =
      (failures.map firstFixReplacements).flatten := by
  unfold collectReplacements
  rw [collectReplacements_go failures []]
  simp

/-- C7: for a lint result with `failureCount > 0`, the replacements gathered
into the file task are exactly the concatenation, in finding order, of the
first fix's replacements of each finding that has at least one fix; findings
with no fix contribute nothing, later fixes are never used, and the
collection is flattened without deduplication. -/
theorem c7_first_fix_only (res : LintResult) (_h : res.failureCount > 0) :
    collectReplacements res.failures =
      (res.failures.map firstFixReplacements).flatten :=
  collectReplacements_flatten res.failures

/-- Witness for C7 on a two-finding result: the first finding has two fixes
(only the first is used), the second finding has none. -/
theorem c7_first_fix_only_witness :
    collectReplacements
        [⟨[⟨[⟨1, 2, "q".toList⟩]⟩, ⟨[⟨3, 4, "r".toList⟩]⟩]⟩, ⟨[]⟩] =
      (([⟨[⟨[⟨1, 2, "q".toList⟩]⟩, ⟨[⟨3, 4, "r".toList⟩]⟩]⟩,
          ⟨[]⟩] : List LintFailure).map firstFixReplacements).flatten :=
  c7_first_fix_only
    ⟨[⟨[⟨[⟨1, 2, "q".toList⟩]⟩, ⟨[⟨3, 4, "r".toList⟩]⟩]⟩, ⟨[]⟩]⟩ (by decide)

/-! ## Orchestration of `main` (main.ts lines 28-127) -/

/-- Observable pipeline events, recorded in execution order. -/
inductive PipelineEvent where
  | programCreate
  | getOptionsDiagnostics
  | codegenInvoked
  | programRebuild
  | typeCheckRun
  | ensureFixDir
  | lintRun (file : FsPath)
  | fixWrite (file : FsPath) (target : FsPath)
  | emitPrimary
  | emitMetadata
  deriving DecidableEq, Repr

/-- Pipeline faults: the fatal options-diagnostics check, a rejected codegen
extension, or a file-system fault. -/
inductive PipelineError where
  | optionsDiag
  | codegenFault
  | io (e : FsError)
  deriving DecidableEq, Repr

/-- The environment of one run: the process working directory, the parsed
file list, and the behaviour of the external collaborators at their
interface boundary (program text per file, lint result per file, option
diagnostics, ngOptions flags, and whether a supplied codegen extension
resolves). -/
structure PipelineEnv where
  cwd : FsPath
  fileNames : List FsPath
  sourceOf : FsPath → List Char
  lintOf : FsPath → LintResult
  optionsDiags : List String
  skipTemplateCodegen : Bool
  hasCodegen : Bool
  codegenOk : Bool
  skipMetadataEmit : Bool

/-- The body of the per-file loop, main.ts lines 78-112: lint the file's
text; if there are failures, collect the first fix of each finding; if at
least one replacement was collected, patch the text with the patch engine,
materialise the mirrored directory with `mkdirParent(fixDir,
path.dirname(newPath))`, and write the patched text to
`path.join(fixDir, newPath)` where `newPath = path.relative(cwd, file)`.
(`console.log` output is not modelled.) -/
def processFile (env : PipelineEnv) (fixDir : FsPath) (fs : FS)
    (file : FsPath) : FS × List PipelineEvent × Option PipelineError :=
  let source := env.sourceOf file
  let result := env.lintOf file
  if result.failureCount > 0 then
    let replacements := collectReplacements result.failures
    if replacements.length > 0 then
      let newSource := patchEngine source replacements
      let newPath := pathRelative env.cwd file
      match mkdirParent fs fixDir newPath.dropLast with
      | (fs1, some e) => (fs1, [.lintRun file], some (.io e))
      | (fs1, none) =>
        match fs1.writeFileSync (pathJoin fixDir newPath) newSource with
        | .error e => (fs1, [.lintRun file], some (.io e))
        | .ok fs2 =>
          (fs2, [.lintRun file, .fixWrite file (pathJoin fixDir newPath)],
            none)
    else (fs, [.lintRun file], none)
  else (fs, [.lintRun file], none)

/-- The `for` loop over `parsed.fileNames` (main.ts line 78), stopping at the
first fault as the thrown exception rejects the surrounding promise. -/
def runFiles (env : PipelineEnv) (fixDir : FsPath) :
    FS → List FsPath → FS × List PipelineEvent × Option PipelineError
  | fs, [] => (fs, [], none)
  | fs, file :: rest =>
    match processFile env fixDir fs file with
    | (fs1, evs, some e) => (fs1, evs, some e)
    | (fs1, evs, none) =>
      match runFiles env fixDir fs1 rest with
      | (fs2, evs2, e2) => (fs2, evs ++ evs2, e2)

/-- The orchestration of `main` from program creation to the dual emit
(main.ts lines 28-127).  Collaborators outside the analysed source are
modelled at their interface boundary:

* Modelled from the spec: `check(errors)` (imported from `./tsc`, whose code
  is not part of the analysed source) — a non-empty diagnostics sequence is
  fatal, aborting before any codegen or emission;
* Modelled from the spec: `tsc.typeCheck` — diagnostics are reported but are
  non-fatal at this layer;
* the codegen extension resolves or rejects according to `codegenOk`; when
  `skipTemplateCodegen` is set or no extension was supplied, main.ts line 34
  replaces it by an immediately resolving no-op, which never rejects;
* the emitters (`tsc.emit` over the tsickle and metadata hosts) are recorded
  as events; their writes are outside this model.

The result is the final file-system state (the effects performed before any
fault persist), the event trace, and the fault if one occurred. -/
def mainModel (env : PipelineEnv) (fs0 : FS) :
    FS × List PipelineEvent × Option PipelineError :=
  let evs0 := [PipelineEvent.programCreate, PipelineEvent.getOptionsDiagnostics]
  if env.optionsDiags.length > 0 then
    (fs0, evs0, some .optionsDiag)
  else
    let codegenRuns := !env.skipTemplateCodegen && env.hasCodegen
    let evs1 := evs0 ++ (if codegenRuns = true then [PipelineEvent.codegenInvoked] else [])
    if codegenRuns && !env.codegenOk then
      (fs0, evs1, some .codegenFault)
    else
      let evs2 := evs1 ++ [PipelineEvent.programRebuild, PipelineEvent.typeCheckRun]
      let fixDir := pathJoin env.cwd ["fixes"]
      match (if fs0.existsSync fixDir = true then Except.ok fs0
             else fs0.mkdirSync fixDir) with
      | .error e => (fs0, evs2 ++ [PipelineEvent.ensureFixDir], some (.io e))
      | .ok fs1 =>
        match runFiles env fixDir fs1 env.fileNames with
        | (fs2, evs3, some e) =>
          (fs2, evs2 ++ [PipelineEvent.ensureFixDir] ++ evs3, some e)
        | (fs2, evs3, none) =>
          (fs2, evs2 ++ [PipelineEvent.ensureFixDir] ++ evs3 ++
              [PipelineEvent.emitPrimary] ++
              (if env.skipMetadataEmit then [] else [PipelineEvent.emitMetadata]),
            none)

/-- C5: a run whose initial program reports a non-empty option-level
diagnostics sequence fails fatally right after the diagnostics query: the
codegen extension, the program rebuild, the type check, the analyzer, the
patch writes and both emitters are never reached, and the file system is
unchanged — no output is produced. -/
theorem c5_options_diagnostics_short_circuit (env : PipelineEnv) (fs0 : FS)
    (h : env.optionsDiags ≠ []) :
    mainModel env fs0 =
      (fs0,
        [PipelineEvent.programCreate, PipelineEvent.getOptionsDiagnostics],
        some PipelineError.optionsDiag) := by
  unfold mainModel
  rw [if_pos (List.length_pos.mpr h)]

/-- Witness for C5: one bad compiler option aborts the run with the file
system untouched and only the create/diagnose events recorded. -/
theorem c5_options_diagnostics_short_circuit_witness :
    mainModel
        ⟨["w"], [["w", "x"]], fun _ => [], fun _ => ⟨[]⟩, ["bad option"],
          false, true, true, false⟩ ⟨[["w"], []], []⟩ =
      (⟨[["w"], []], []⟩,
        [PipelineEvent.programCreate, PipelineEvent.getOptionsDiagnostics],
        some PipelineError.optionsDiag) :=
  c5_options_diagnostics_short_circuit _ _ (by decide)

/-- The per-file step only records a lint event for its own file and possibly
one fix write for its own file. -/
theorem processFile_events (env : PipelineEnv) (fixDir : FsPath) (fs : FS)
    (file : FsPath) :
    ∀ e ∈ (processFile env fixDir fs file).2.1,
      e = PipelineEvent.lintRun file ∨
        ∃ t, e = PipelineEvent.fixWrite file t := by
  intro e he
  simp only [processFile] at he
  split at he
  · split at he
    · split at he
      · simp at he
        exact Or.inl he
      · split at he
        · simp at he
          exact Or.inl he
        · simp at he
          rcases he with he | he
          · exact Or.inl he
          · exact Or.inr ⟨_, he⟩
    · simp at he
      exact Or.inl he
  · simp at he
    exact Or.inl he

/-- The file loop only records lint events and fix writes. -/
theorem runFiles_events (env : PipelineEnv) (fixDir : FsPath) :
    ∀ (files : List FsPath) (fs : FS),
      ∀ e ∈ (runFiles env fixDir fs files).2.1,
        (∃ f, e = PipelineEvent.lintRun f) ∨
          ∃ f t, e = PipelineEvent.fixWrite f t := by
  intro files
  induction files with
  | nil =>
    intro fs e he
    simp [runFiles] at he
  | cons file rest ih =>
    intro fs e he
    simp only [runFiles] at he
    split at he
    · rename_i fs1 evs er heq
      have := processFile_events env fixDir fs file e (by rw [heq]; exact he)
      rcases this with h | ⟨t, h⟩
      · exact Or.inl ⟨file, h⟩
      · exact Or.inr ⟨file, t, h⟩
    · rename_i fs1 evs heq
      have he2 : e ∈ evs ++ (runFiles env fixDir fs1 rest).2.1 := he
      rcases List.mem_append.mp he2 with hm | hm
      · have := processFile_events env fixDir fs file e (by rw [heq]; exact hm)
        rcases this with h | ⟨t, h⟩
        · exact Or.inl ⟨file, h⟩
        · exact Or.inr ⟨file, t, h⟩
      · exact ih fs1 e hm

/-- A successful `writeFileSync` preserves existing paths. -/
theorem existsSync_mono_write (fs fs2 : FS) (p : FsPath) (c : List Char)
    (q : FsPath) (h : fs.writeFileSync p c = .ok fs2)
    (hq : fs.existsSync q = true) : fs2.existsSync q = true := by
  unfold FS.writeFileSync at h
  by_cases h1 : p ∈ fs.dirs
  · rw [if_pos h1] at h
    cases h
  · rw [if_neg h1] at h
    by_cases h2 : p.dropLast ∈ fs.dirs
    · rw [if_pos h2] at h
      injection h with h3
      subst h3
      rw [existsSync_true_iff] at hq ⊢
      rcases hq with hm | hm
      · exact Or.inl hm
      · right
        simp only [List.map_cons]
        exact List.mem_cons_of_mem _ hm
    · rw [if_neg h2] at h
      cases h

/-- A successful `writeFileSync` does not change the content stored at any
other path. -/
theorem readFile_write_ne (fs fs2 : FS) (p : FsPath) (c : List Char)
    (q : FsPath) (h : fs.writeFileSync p c = .ok fs2) (hne : q ≠ p) :
    fs2.readFile q = fs.readFile q := by
  unfold FS.writeFileSync at h
  by_cases h1 : p ∈ fs.dirs
  · rw [if_pos h1] at h
    cases h
  · rw [if_neg h1] at h
    by_cases h2 : p.dropLast ∈ fs.dirs
    · rw [if_pos h2] at h
      injection h with h3
      subst h3
      unfold FS.readFile
      simp only [List.lookup]
      have hbeq : (q == p) = false := beq_eq_false_iff_ne.mpr hne
      rw [hbeq]
    · rw [if_neg h2] at h
      cases h

/-- `mkdirParentGo` preserves existing paths, also across faults. -/
theorem mkdirParentGo_exists_mono (fuel : Nat) :
    ∀ (fs : FS) (baseDir dir : FsPath) (fs2 : FS) (eo : Option FsError),
      mkdirParentGo fuel fs baseDir dir = some (fs2, eo) →
      ∀ q, fs.existsSync q = true → fs2.existsSync q = true := by
  induction fuel with
  | zero =>
    intro fs b d fs2 eo h q hq
    cases h
  | succ n ih =>
    intro fs b d fs2 eo h q hq
    simp only [mkdirParentGo] at h
    split at h
    · have h2 : fs = fs2 := congrArg Prod.fst (Option.some.inj h)
      subst h2
      exact hq
    · split at h
      · cases h
      · rename_i fs1 e heq
        have h2 : fs1 = fs2 := congrArg Prod.fst (Option.some.inj h)
        subst h2
        exact ih fs b d.dropLast fs1 (some e) heq q hq
      · rename_i fs1 heq
        split at h
        · rename_i e hmk
          have h2 : fs1 = fs2 := congrArg Prod.fst (Option.some.inj h)
          subst h2
          exact ih fs b d.dropLast fs1 none heq q hq
        · rename_i fs3 hmk
          have h2 : fs3 = fs2 := congrArg Prod.fst (Option.some.inj h)
          subst h2
          exact existsSync_mono_mkdir fs1 fs3 _ q hmk
            (ih fs b d.dropLast fs1 none heq q hq)

/-- `mkdirParent` preserves existing paths, also across faults. -/
theorem mkdirParent_exists_mono (fs : FS) (baseDir dir : FsPath) (q : FsPath)
    (hq : fs.existsSync q = true) :
    (mkdirParent fs baseDir dir).1.existsSync q = true := by
  have hgo := mkdirParentGo_eq (dir.length + 1) fs baseDir dir
    (Nat.lt_succ_self _)
  exact mkdirParentGo_exists_mono (dir.length + 1) fs baseDir dir
    (mkdirParent fs baseDir dir).1 (mkdirParent fs baseDir dir).2
    (by rw [hgo]) q hq

/-- `mkdirParentGo` never touches the file entries, also across faults. -/
theorem mkdirParentGo_files (fuel : Nat) :
    ∀ (fs : FS) (baseDir dir : FsPath) (fs2 : FS) (eo : Option FsError),
      mkdirParentGo fuel fs baseDir dir = some (fs2, eo) →
      fs2.files = fs.files := by
  induction fuel with
  | zero =>
    intro fs b d fs2 eo h
    cases h
  | succ n ih =>
    intro fs b d fs2 eo h
    simp only [mkdirParentGo] at h
    split at h
    · have h2 : fs = fs2 := congrArg Prod.fst (Option.some.inj h)
      subst h2
      rfl
    · split at h
      · cases h
      · rename_i fs1 e heq
        have h2 : fs1 = fs2 := congrArg Prod.fst (Option.some.inj h)
        subst h2
        exact ih fs b d.dropLast fs1 (some e) heq
      · rename_i fs1 heq
        split at h
        · rename_i e hmk
          have h2 : fs1 = fs2 := congrArg Prod.fst (Option.some.inj h)
          subst h2
          exact ih fs b d.dropLast fs1 none heq
        · rename_i fs3 hmk
          have h2 : fs3 = fs2 := congrArg Prod.fst (Option.some.inj h)
          subst h2
          obtain ⟨-, hfiles, -, -⟩ := mkdirSync_ok fs1 fs3 _ hmk
          rw [hfiles]
          exact ih fs b d.dropLast fs1 none heq

/-- `mkdirParent` never touches the file entries. -/
theorem mkdirParent_files (fs : FS) (baseDir dir : FsPath) :
    (mkdirParent fs baseDir dir).1.files = fs.files := by
  have hgo := mkdirParentGo_eq (dir.length + 1) fs baseDir dir
    (Nat.lt_succ_self _)
  exact mkdirParentGo_files (dir.length + 1) fs baseDir dir
    (mkdirParent fs baseDir dir).1 (mkdirParent fs baseDir dir).2 (by rw [hgo])

/-- The per-file step preserves existing paths. -/
theorem processFile_exists_mono (env : PipelineEnv) (fixDir : FsPath)
    (fs : FS) (file q : FsPath) (hq : fs.existsSync q = true) :
    (processFile env fixDir fs file).1.existsSync q = true := by
  simp only [processFile]
  split
  · split
    · split
      · rename_i fs1 e heq
        have : fs1 = (mkdirParent fs fixDir
            (pathRelative env.cwd file).dropLast).1 := by
          rw [heq]
        rw [this]
        exact mkdirParent_exists_mono fs fixDir _ q hq
      · rename_i fs1 heq
        have hfs1 : fs1 = (mkdirParent fs fixDir
            (pathRelative env.cwd file).dropLast).1 := by
          rw [heq]
        have hq1 : fs1.existsSync q = true := by
          rw [hfs1]
          exact mkdirParent_exists_mono fs fixDir _ q hq
        split
        · exact hq1
        · rename_i fs2 hw
          exact existsSync_mono_write fs1 fs2 _ _ q hw hq1
    · exact hq
  · exact hq

/-- The file loop preserves existing paths. -/
theorem runFiles_exists_mono (env : PipelineEnv) (fixDir : FsPath) :
    ∀ (files : List FsPath) (fs : FS) (q : FsPath),
      fs.existsSync q = true →
      (runFiles env fixDir fs files).1.existsSync q = true := by
  intro files
  induction files with
  | nil =>
    intro fs q hq
    exact hq
  | cons file rest ih =>
    intro fs q hq
    simp only [runFiles]
    split
    · rename_i fs1 evs er heq
      have : fs1 = (processFile env fixDir fs file).1 := by rw [heq]
      rw [this]
      exact processFile_exists_mono env fixDir fs file q hq
    · rename_i fs1 evs heq
      have hfs1 : fs1 = (processFile env fixDir fs file).1 := by rw [heq]
      have hq1 : fs1.existsSync q = true := by
        rw [hfs1]
        exact processFile_exists_mono env fixDir fs file q hq
      exact ih fs1 q hq1

/-- Trace structure of a run that passes the options-diagnostics check and
whose codegen step completes: the five phase events come first, in order, and
everything after the fixes-root step is lint, fix-write or emit activity. -/
theorem mainModel_trace (env : PipelineEnv) (fs0 : FS)
    (hdiag : env.optionsDiags = [])
    (hok : ((!env.skipTemplateCodegen && env.hasCodegen) && !env.codegenOk)
      = false) :
    ∃ t, (mainModel env fs0).2.1 =
        [PipelineEvent.programCreate, PipelineEvent.getOptionsDiagnostics] ++
          (if (!env.skipTemplateCodegen && env.hasCodegen) = true
            then [PipelineEvent.codegenInvoked] else []) ++
          [PipelineEvent.programRebuild, PipelineEvent.typeCheckRun,
            PipelineEvent.ensureFixDir] ++ t ∧
      ∀ e ∈ t, (∃ f, e = PipelineEvent.lintRun f) ∨
        (∃ f tg, e = PipelineEvent.fixWrite f tg) ∨
        e = PipelineEvent.emitPrimary ∨ e = PipelineEvent.emitMetadata := by
  simp only [mainModel, hdiag, List.length_nil, gt_iff_lt, lt_self_iff_false,
    if_false, hok, Bool.false_eq_true]
  split
  · rename_i e heq
    refine ⟨[], ?_, by intro e he; cases he⟩
    simp
  · rename_i fs1 heq
    split
    · rename_i fs2 evs3 er heq2
      refine ⟨evs3, by simp, ?_⟩
      intro e he
      have := runFiles_events env (pathJoin env.cwd ["fixes"]) env.fileNames
        fs1 e (by rw [heq2]; exact he)
      rcases this with ⟨f, h⟩ | ⟨f, tg, h⟩
      · exact Or.inl ⟨f, h⟩
      · exact Or.inr (Or.inl ⟨f, tg, h⟩)
    · rename_i fs2 evs3 heq2
      refine ⟨evs3 ++ [PipelineEvent.emitPrimary] ++
        (if env.skipMetadataEmit = true then [] else
          [PipelineEvent.emitMetadata]), by simp, ?_⟩
      intro e he
      rcases List.mem_append.mp he with he1 | he1
      · rcases List.mem_append.mp he1 with he2 | he2
        · have := runFiles_events env (pathJoin env.cwd ["fixes"])
            env.fileNames fs1 e (by rw [heq2]; exact he2)
          rcases this with ⟨f, h⟩ | ⟨f, tg, h⟩
          · exact Or.inl ⟨f, h⟩
          · exact Or.inr (Or.inl ⟨f, tg, h⟩)
        · simp at he2
          subst he2
          exact Or.inr (Or.inr (Or.inl rfl))
      · by_cases hsk : env.skipMetadataEmit = true
        · rw [if_pos hsk] at he1
          cases he1
        · rw [if_neg hsk] at he1
          simp at he1
          subst he1
          exact Or.inr (Or.inr (Or.inr rfl))

/-- C6: with `skipTemplateCodegen` set (or no codegen extension supplied) and
clean option diagnostics, the codegen extension is never invoked — the step
completes as a no-op — while the program is still rebuilt exactly once, and
that rebuild happens before the type check. -/
theorem c6_codegen_skip_unconditional_recompile (env : PipelineEnv) (fs0 : FS)
    (hskip : env.skipTemplateCodegen = true ∨ env.hasCodegen = false)
    (hdiag : env.optionsDiags = []) :
    PipelineEvent.codegenInvoked ∉ (mainModel env fs0).2.1 ∧
      (mainModel env fs0).2.1.count PipelineEvent.programRebuild = 1 ∧
      (mainModel env fs0).2.1.take 4 =
        [PipelineEvent.programCreate, PipelineEvent.getOptionsDiagnostics,
          PipelineEvent.programRebuild, PipelineEvent.typeCheckRun] := by
  have hcg : (!env.skipTemplateCodegen && env.hasCodegen) = false := by
    rcases hskip with h | h <;> simp [h]
  obtain ⟨t, htr, hmem⟩ := mainModel_trace env fs0 hdiag (by rw [hcg]; simp)
  rw [hcg] at htr
  simp only [Bool.false_eq_true, if_false, List.nil_append, List.append_nil]
    at htr
  rw [htr]
  refine ⟨?_, ?_, ?_⟩
  · intro hmem2
    have hmt : PipelineEvent.codegenInvoked ∈ t := by
      rcases List.mem_append.mp hmem2 with h | h
      · simp at h
      · exact h
    rcases hmem _ hmt with ⟨f, hf⟩ | ⟨f, tg, hf⟩ | hf | hf <;> cases hf
  · have h0 : t.count PipelineEvent.programRebuild = 0 := by
      rw [List.count_eq_zero]
      intro hmem2
      rcases hmem _ hmem2 with ⟨f, hf⟩ | ⟨f, tg, hf⟩ | hf | hf <;> cases hf
    rw [List.count_append, h0]
    rfl
  · rfl

/-- Witness for C6 on a concrete run with `skipTemplateCodegen` set and a
codegen extension supplied. -/
theorem c6_codegen_skip_unconditional_recompile_witness :
    PipelineEvent.codegenInvoked ∉
        (mainModel
          ⟨["w"], [], fun _ => [], fun _ => ⟨[]⟩, [], true, true, true, false⟩
          ⟨[["w"], []], []⟩).2.1 ∧
      ((mainModel
          ⟨["w"], [], fun _ => [], fun _ => ⟨[]⟩, [], true, true, true, false⟩
          ⟨[["w"], []], []⟩).2.1).count PipelineEvent.programRebuild = 1 ∧
      ((mainModel
          ⟨["w"], [], fun _ => [], fun _ => ⟨[]⟩, [], true, true, true, false⟩
          ⟨[["w"], []], []⟩).2.1).take 4 =
        [PipelineEvent.programCreate, PipelineEvent.getOptionsDiagnostics,
          PipelineEvent.programRebuild, PipelineEvent.typeCheckRun] :=
  c6_codegen_skip_unconditional_recompile _ _ (Or.inl rfl) rfl

/-- C9: every run that reaches the Analyze+Patch phase (clean options
diagnostics, codegen step completes) first ensures the fixed `fixes` root
under the working directory — before any file is linted — and the root exists
in the final file-system state whether or not any finding or replacement was
produced (the lint behaviour is arbitrary in this statement). -/
theorem c9_fix_root_created (env : PipelineEnv) (fs0 : FS)
    (hdiag : env.optionsDiags = [])
    (hok : ((!env.skipTemplateCodegen && env.hasCodegen) && !env.codegenOk)
      = false)
    (hcwdfree : ".." ∉ env.cwd) (hcwd : env.cwd ∈ fs0.dirs) :
    (mainModel env fs0).1.existsSync (env.cwd ++ ["fixes"]) = true ∧
      ∃ pre post, (mainModel env fs0).2.1 =
          pre ++ PipelineEvent.ensureFixDir :: post ∧
          ∀ f, PipelineEvent.lintRun f ∉ pre := by
  have hfree : (".." : String) ∉ (["fixes"] : FsPath) := by decide
  have hfd : pathJoin env.cwd ["fixes"] = env.cwd ++ ["fixes"] :=
    pathJoin_eq_append _ _ hcwdfree hfree
  constructor
  · simp only [mainModel, hdiag, List.length_nil, gt_iff_lt,
      lt_self_iff_false, if_false, hok, Bool.false_eq_true]
    have hstep : ∃ fs1, (if fs0.existsSync (pathJoin env.cwd ["fixes"]) = true
          then Except.ok fs0
          else fs0.mkdirSync (pathJoin env.cwd ["fixes"])) =
            Except.ok fs1 ∧
        fs1.existsSync (env.cwd ++ ["fixes"]) = true := by
      by_cases hex : fs0.existsSync (pathJoin env.cwd ["fixes"]) = true
      · refine ⟨fs0, if_pos hex, ?_⟩
        rw [← hfd]
        exact hex
      · refine ⟨⟨(env.cwd ++ ["fixes"]) :: fs0.dirs, fs0.files⟩, ?_, ?_⟩
        · rw [if_neg hex]
          unfold FS.mkdirSync
          rw [hfd] at hex ⊢
          rw [if_neg hex]
          rw [if_pos]
          rw [List.dropLast_concat]
          exact hcwd
        · rw [existsSync_true_iff]
          exact Or.inl (List.mem_cons_self _ _)
    obtain ⟨fs1, hst, hex1⟩ := hstep
    rcases hrf : runFiles env (pathJoin env.cwd ["fixes"]) fs1 env.fileNames
      with ⟨fs2, evs3, eo⟩
    have h2 : fs2.existsSync (env.cwd ++ ["fixes"]) = true := by
      have hmono := runFiles_exists_mono env (pathJoin env.cwd ["fixes"])
        env.fileNames fs1 _ hex1
      rw [hrf] at hmono
      exact hmono
    simp only [hst, hrf]
    cases eo with
    | none => exact h2
    | some e => exact h2
  · obtain ⟨t, htr, -⟩ := mainModel_trace env fs0 hdiag hok
    refine ⟨[PipelineEvent.programCreate, PipelineEvent.getOptionsDiagnostics]
        ++ (if (!env.skipTemplateCodegen && env.hasCodegen) = true
          then [PipelineEvent.codegenInvoked] else []) ++
        [PipelineEvent.programRebuild, PipelineEvent.typeCheckRun], t, ?_, ?_⟩
    · rw [htr]
      simp
    · intro f hf
      by_cases hcg : (!env.skipTemplateCodegen && env.hasCodegen) = true
      · rw [if_pos hcg] at hf
        simp at hf
      · rw [if_neg hcg] at hf
        simp at hf

/-- Witness for C9 on a run with no files at all: the `fixes` root exists
afterwards even though nothing was linted or fixed. -/
theorem c9_fix_root_created_witness :
    (mainModel
        ⟨["w"], [], fun _ => [], fun _ => ⟨[]⟩, [], false, false, true, false⟩
        ⟨[["w"], []], []⟩).1.existsSync (["w"] ++ ["fixes"]) = true ∧
      ∃ pre post, (mainModel
          ⟨["w"], [], fun _ => [], fun _ => ⟨[]⟩, [], false, false, true,
            false⟩ ⟨[["w"], []], []⟩).2.1 =
          pre ++ PipelineEvent.ensureFixDir :: post ∧
          ∀ f, PipelineEvent.lintRun f ∉ pre :=
  c9_fix_root_created _ _ rfl (by decide) (by decide) (by decide)

/-- `path.relative` produces a block of `".."` segments followed by a suffix
of the target: for some common-prefix length `c`,
`pathRelative base target = replicate (base.length - c) ".." ++ target.drop c`. -/
theorem pathRelative_spec :
    ∀ (base target : FsPath), ∃ c, c ≤ base.length ∧ c ≤ target.length ∧
      pathRelative base target =
        List.replicate (base.length - c) ".." ++ target.drop c := by
  intro base
  induction base with
  | nil =>
    intro target
    exact ⟨0, Nat.zero_le _, Nat.zero_le _, by simp [pathRelative]⟩
  | cons f fs ih =>
    intro target
    cases target with
    | nil =>
      refine ⟨0, Nat.zero_le _, Nat.zero_le _, ?_⟩
      simp only [pathRelative, List.drop_nil, List.append_nil, Nat.sub_zero]
      exact List.map_const' (f :: fs) ".."
    | cons t ts =>
      by_cases hft : f = t
      · obtain ⟨c, hc1, hc2, hrel⟩ := ih ts
        refine ⟨c + 1, Nat.succ_le_succ hc1, Nat.succ_le_succ hc2, ?_⟩
        simp only [pathRelative, if_pos hft]
        rw [hrel]
        have hn : (f :: fs).length - (c + 1) = fs.length - c := by
          simp only [List.length_cons]
          omega
        have hd : (t :: ts).drop (c + 1) = ts.drop c := rfl
        rw [hn, hd]
      · refine ⟨0, Nat.zero_le _, Nat.zero_le _, ?_⟩
        simp only [pathRelative, if_neg hft, List.drop_zero, Nat.sub_zero]
        rw [List.map_const' (f :: fs) ".."]

/-- Folding the normalisation step over a block of `".."` segments pops the
accumulator once per segment. -/
theorem normalizePath_ups (k : Nat) :
    ∀ acc : FsPath,
      (List.replicate k "..").foldl
        (fun acc s => if s = ".." then acc.dropLast else acc ++ [s]) acc =
        acc.take (acc.length - k) := by
  induction k with
  | zero =>
    intro acc
    simp [List.take_length]
  | succ n ih =>
    intro acc
    rw [List.replicate_succ, List.foldl_cons, if_pos rfl, ih acc.dropLast]
    rw [List.length_dropLast, List.dropLast_eq_take, List.take_take]
    congr 1
    omega

/-- Normalising `p ++ ups ++ t` with `".."`-free `p` and `t` strips the last
`k` segments of `p`. -/
theorem normalizePath_append_ups (p : FsPath) (hp : ".." ∉ p) (k : Nat)
    (t : FsPath) (ht : ".." ∉ t) :
    normalizePath (p ++ (List.replicate k ".." ++ t)) =
      p.take (p.length - k) ++ t := by
  unfold normalizePath
  rw [List.foldl_append, List.foldl_append, normalizePath_go p [] hp]
  simp only [List.nil_append]
  rw [normalizePath_ups k p, normalizePath_go t _ ht]

/-- The mirrored write target `path.join(fixDir, path.relative(cwd, file))`
always has exactly one segment more than the source file path. -/
theorem mirrorTarget_length (cwd file : FsPath) (hc : ".." ∉ cwd)
    (hf : ".." ∉ file) :
    (pathJoin (pathJoin cwd ["fixes"]) (pathRelative cwd file)).length =
      file.length + 1 := by
  have hfree : (".." : String) ∉ (["fixes"] : FsPath) := by decide
  have h1 : pathJoin cwd ["fixes"] = cwd ++ ["fixes"] :=
    pathJoin_eq_append _ _ hc hfree
  obtain ⟨c, hc1, hc2, hrel⟩ := pathRelative_spec cwd file
  have hpfree : (".." : String) ∉ cwd ++ ["fixes"] := by
    intro hm
    rcases List.mem_append.mp hm with h | h
    · exact hc h
    · exact hfree h
  have htfree : (".." : String) ∉ file.drop c := by
    intro hm
    exact hf (List.drop_subset _ _ hm)
  rw [h1, hrel]
  unfold pathJoin
  rw [normalizePath_append_ups (cwd ++ ["fixes"]) hpfree (cwd.length - c)
    (file.drop c) htfree]
  rw [List.length_append, List.length_take, List.length_drop,
    List.length_append]
  simp only [List.length_cons, List.length_nil]
  omega

/-- The mirrored write target is never the source file path itself. -/
theorem mirrorTarget_ne (cwd file : FsPath) (hc : ".." ∉ cwd)
    (hf : ".." ∉ file) :
    pathJoin (pathJoin cwd ["fixes"]) (pathRelative cwd file) ≠ file := by
  intro h
  have hlen := mirrorTarget_length cwd file hc hf
  rw [h] at hlen
  omega

/-- Case analysis of the per-file step: it either only lints, or faults in
`mkdirParent`, or faults in the write, or writes the patched text to the
mirrored path. -/
theorem processFile_cases (env : PipelineEnv) (fixDir : FsPath) (fs : FS)
    (file : FsPath) :
    processFile env fixDir fs file =
        (fs, [PipelineEvent.lintRun file], none) ∨
      (∃ fs1 e, mkdirParent fs fixDir (pathRelative env.cwd file).dropLast =
          (fs1, some e) ∧
        processFile env fixDir fs file =
          (fs1, [PipelineEvent.lintRun file], some (PipelineError.io e))) ∨
      (∃ fs1 e, mkdirParent fs fixDir (pathRelative env.cwd file).dropLast =
          (fs1, none) ∧
        fs1.writeFileSync (pathJoin fixDir (pathRelative env.cwd file))
          (patchEngine (env.sourceOf file)
            (collectReplacements (env.lintOf file).failures)) = .error e ∧
        processFile env fixDir fs file =
          (fs1, [PipelineEvent.lintRun file], some (PipelineError.io e))) ∨
      (∃ fs1 fs2, mkdirParent fs fixDir (pathRelative env.cwd file).dropLast =
          (fs1, none) ∧
        fs1.writeFileSync (pathJoin fixDir (pathRelative env.cwd file))
          (patchEngine (env.sourceOf file)
            (collectReplacements (env.lintOf file).failures)) = .ok fs2 ∧
        processFile env fixDir fs file =
          (fs2, [PipelineEvent.lintRun file,
            PipelineEvent.fixWrite file
              (pathJoin fixDir (pathRelative env.cwd file))], none)) := by
  by_cases h1 : (env.lintOf file).failureCount > 0
  · by_cases h2 : (collectReplacements (env.lintOf file).failures).length > 0
    · rcases hmk : mkdirParent fs fixDir (pathRelative env.cwd file).dropLast
        with ⟨fs1, eo⟩
      cases eo with
      | some e =>
        refine Or.inr (Or.inl ⟨fs1, e, rfl, ?_⟩)
        simp only [processFile, if_pos h1, if_pos h2, hmk]
      | none =>
        rcases hw : fs1.writeFileSync
            (pathJoin fixDir (pathRelative env.cwd file))
            (patchEngine (env.sourceOf file)
              (collectReplacements (env.lintOf file).failures))
          with e | fs2
        · refine Or.inr (Or.inr (Or.inl ⟨fs1, e, rfl, hw, ?_⟩))
          simp only [processFile, if_pos h1, if_pos h2, hmk, hw]
        · refine Or.inr (Or.inr (Or.inr ⟨fs1, fs2, rfl, hw, ?_⟩))
          simp only [processFile, if_pos h1, if_pos h2, hmk, hw]
    · refine Or.inl ?_
      simp only [processFile, if_pos h1, if_neg h2]
  · refine Or.inl ?_
    simp only [processFile, if_neg h1]

/-- C8: Mirror-only patching: for a file with at least one collected
replacement, the Analyze+Patch step for that file records writes only
against the mirrored path — the file's path relative to the working
directory joined under the `fixes` root — no path other than the mirrored
one changes content, and the original source file on disk is left unchanged
by the step (the mirrored target always differs from the source path). -/
theorem c8_mirror_only_patching (env : PipelineEnv) (fs : FS) (file : FsPath)
    (hc : ".." ∉ env.cwd) (hf : ".." ∉ file)
    (_hrep : 0 < (collectReplacements (env.lintOf file).failures).length) :
    (∀ e ∈ (processFile env (pathJoin env.cwd ["fixes"]) fs file).2.1,
        e = PipelineEvent.lintRun file ∨
          e = PipelineEvent.fixWrite file
            (pathJoin (pathJoin env.cwd ["fixes"])
              (pathRelative env.cwd file))) ∧
      (∀ p, p ≠ pathJoin (pathJoin env.cwd ["fixes"])
          (pathRelative env.cwd file) →
        (processFile env (pathJoin env.cwd ["fixes"]) fs file).1.readFile p =
          fs.readFile p) ∧
      (processFile env (pathJoin env.cwd ["fixes"]) fs file).1.readFile file =
        fs.readFile file := by
  have hne := mirrorTarget_ne env.cwd file hc hf
  have hfiles1 : ∀ fs1 eo,
      mkdirParent fs (pathJoin env.cwd ["fixes"])
          (pathRelative env.cwd file).dropLast = (fs1, eo) →
      fs1.files = fs.files := by
    intro fs1 eo hmk
    have h0 := mkdirParent_files fs (pathJoin env.cwd ["fixes"])
      (pathRelative env.cwd file).dropLast
    rw [hmk] at h0
    exact h0
  have key : ∀ p, p ≠ pathJoin (pathJoin env.cwd ["fixes"])
      (pathRelative env.cwd file) →
      (processFile env (pathJoin env.cwd ["fixes"]) fs file).1.readFile p =
        fs.readFile p := by
    intro p hp
    rcases processFile_cases env (pathJoin env.cwd ["fixes"]) fs file with
      hcase | ⟨fs1, e, hmk, hcase⟩ | ⟨fs1, e, hmk, hw, hcase⟩ |
      ⟨fs1, fs2, hmk, hw, hcase⟩
    · rw [hcase]
    · rw [hcase]
      show fs1.readFile p = fs.readFile p
      unfold FS.readFile
      rw [hfiles1 fs1 (some e) hmk]
    · rw [hcase]
      show fs1.readFile p = fs.readFile p
      unfold FS.readFile
      rw [hfiles1 fs1 none hmk]
    · rw [hcase]
      show fs2.readFile p = fs.readFile p
      rw [readFile_write_ne fs1 fs2 _ _ p hw hp]
      unfold FS.readFile
      rw [hfiles1 fs1 none hmk]
  have hevts : ∀ e ∈ (processFile env (pathJoin env.cwd ["fixes"]) fs
      file).2.1,
      e = PipelineEvent.lintRun file ∨
        e = PipelineEvent.fixWrite file (pathJoin (pathJoin env.cwd ["fixes"])
          (pathRelative env.cwd file)) := by
    intro e he
    rcases processFile_cases env (pathJoin env.cwd ["fixes"]) fs file with
      hcase | ⟨fs1, er, hmk, hcase⟩ | ⟨fs1, er, hmk, hw, hcase⟩ |
      ⟨fs1, fs2, hmk, hw, hcase⟩ <;> rw [hcase] at he <;> simp at he
    · exact Or.inl he
    · exact Or.inl he
    · exact Or.inl he
    · rcases he with he | he
      · exact Or.inl he
      · exact Or.inr he
  exact ⟨hevts, key, key file (Ne.symm hne)⟩

/-- Witness for C8 on a concrete file with one collected replacement. -/
theorem c8_mirror_only_patching_witness :
    (∀ e ∈ (processFile
        ⟨["w"], [["w", "x"]], fun _ => "ab".toList,
          fun _ => ⟨[⟨[⟨[⟨0, 1, "Z".toList⟩]⟩]⟩]⟩, [], false, false, true,
          false⟩
        (pathJoin ["w"] ["fixes"])
        ⟨[["w", "fixes"], ["w"], []], [(["w", "x"], "ab".toList)]⟩
        ["w", "x"]).2.1,
        e = PipelineEvent.lintRun ["w", "x"] ∨
          e = PipelineEvent.fixWrite ["w", "x"]
            (pathJoin (pathJoin ["w"] ["fixes"])
              (pathRelative ["w"] ["w", "x"]))) ∧
      (∀ p, p ≠ pathJoin (pathJoin ["w"] ["fixes"])
          (pathRelative ["w"] ["w", "x"]) →
        (processFile
          ⟨["w"], [["w", "x"]], fun _ => "ab".toList,
            fun _ => ⟨[⟨[⟨[⟨0, 1, "Z".toList⟩]⟩]⟩]⟩, [], false, false, true,
            false⟩
          (pathJoin ["w"] ["fixes"])
          ⟨[["w", "fixes"], ["w"], []], [(["w", "x"], "ab".toList)]⟩
          ["w", "x"]).1.readFile p =
          (⟨[["w", "fixes"], ["w"], []],
            [(["w", "x"], "ab".toList)]⟩ : FS).readFile p) ∧
      (processFile
        ⟨["w"], [["w", "x"]], fun _ => "ab".toList,
          fun _ => ⟨[⟨[⟨[⟨0, 1, "Z".toList⟩]⟩]⟩]⟩, [], false, false, true,
          false⟩
        (pathJoin ["w"] ["fixes"])
        ⟨[["w", "fixes"], ["w"], []], [(["w", "x"], "ab".toList)]⟩
        ["w", "x"]).1.readFile ["w", "x"] =
        (⟨[["w", "fixes"], ["w"], []],
          [(["w", "x"], "ab".toList)]⟩ : FS).readFile ["w", "x"] :=
  c8_mirror_only_patching _ _ _ (by decide) (by decide) (by decide)
